import Mathlib

/-!
Shallow embedding of the `AsyncTimer` deferred-execution scheduler from
`include/lmcore/async_timer.h` (namespace `lmshao::lmcore`).

Time points and durations are modelled as natural numbers of milliseconds.
Callbacks are opaque: a callback is represented by a natural-number token
that the scheduler stores and hands off but never inspects, mirroring the
opaque `std::function<void()>` of the source.

The header declares the data model (`TimerTask`, the `timerTasks_`
multimap ordered by execution time, the `timerMap_` map keyed by timer id,
the atomic `nextTimerId_` counter starting at 1, the `running_` flag) and
the operation signatures; the bodies of the operations are not part of the
sources, so each operation below is modelled from the specification text,
as noted in its doc comment.  Concurrency is modelled by interleaving:
every API call and every worker pass runs atomically under the shared
mutex, which is exactly the granularity the spec prescribes (all store
mutation happens under one lock).
-/

namespace LmCore

/-- Timer record, from `struct TimerTask` in the header: id, callback,
next execution time, interval, repeating flag, cancelled flag. -/
structure TimerTask where
  id : Nat
  callback : Nat
  nextExecutionTime : Nat
  interval : Nat
  isRepeating : Bool
  isCancelled : Bool
deriving Repr, DecidableEq

/-- The `TimerTask` constructor from the header (lines 120-124): it copies
the five arguments and unconditionally sets `isCancelled` to `false`. -/
def TimerTask.create (id : Nat) (cb : Nat) (execTime : Nat) (interval : Nat)
    (repeating : Bool) : TimerTask :=
  { id := id, callback := cb, nextExecutionTime := execTime,
    interval := interval, isRepeating := repeating, isCancelled := false }

/-- Scheduler state: the fields of class `AsyncTimer`.  `timerTasks` models
the `std::multimap<TimePoint, task>` as a list sorted by
`nextExecutionTime` with ties kept in insertion order (the iteration order
of a multimap); `timerMap` models the `std::map<TimerId, task>` as an
association list sorted by key.  `wakeSignals` counts notifications of the
condition variable; `workerSpawned` records whether the worker thread
exists. -/
structure AsyncTimer where
  running : Bool
  shouldStop : Bool
  nextTimerId : Nat
  wakeSignals : Nat
  workerSpawned : Bool
  timerTasks : List TimerTask
  timerMap : List (Nat × TimerTask)
deriving Repr, DecidableEq

/-- Initial state of a freshly constructed `AsyncTimer`: not running, id
counter at 1, empty store. -/
def AsyncTimer.init : AsyncTimer :=
  { running := false, shouldStop := false, nextTimerId := 1,
    wakeSignals := 0, workerSpawned := false, timerTasks := [], timerMap := [] }

/-- Insertion into the deadline-ordered multimap view: a new record is
placed after every record whose execution time is not later than its own,
which is the `std::multimap` rule that equal keys keep insertion order. -/
def multimapInsert (t : TimerTask) : List TimerTask → List TimerTask
  | [] => [t]
  | x :: xs =>
    if t.nextExecutionTime < x.nextExecutionTime then t :: x :: xs
    else x :: multimapInsert t xs

/-- Insertion into the id-keyed map view, kept sorted by key as a
`std::map` is. -/
def mapInsert (k : Nat) (t : TimerTask) : List (Nat × TimerTask) →
    List (Nat × TimerTask)
  | [] => [(k, t)]
  | p :: ps => if k < p.1 then (k, t) :: p :: ps else p :: mapInsert k t ps

/-- Modelled from the spec: `ScheduleOnce(callback, delayMs)` (body not in
the sources).  No-op returning sentinel 0 if not running; otherwise
allocates a fresh id from the monotonic counter, computes
deadline = now + delayMs, inserts a non-repeating record into both views,
signals the wake condition and returns the id. -/
def ScheduleOnce (s : AsyncTimer) (cb : Nat) (delayMs : Nat) (now : Nat) :
    Nat × AsyncTimer :=
  if s.running then
    let id := s.nextTimerId
    let t := TimerTask.create id cb (now + delayMs) 0 false
    (id, { s with nextTimerId := id + 1,
                  wakeSignals := s.wakeSignals + 1,
                  timerTasks := multimapInsert t s.timerTasks,
                  timerMap := mapInsert id t s.timerMap })
  else (0, s)

/-- Modelled from the spec: `ScheduleRepeating(callback, intervalMs,
initialDelayMs)` (body not in the sources).  Same as `ScheduleOnce` but
repeating, with interval `intervalMs` and first deadline
now + initialDelayMs. -/
def ScheduleRepeating (s : AsyncTimer) (cb : Nat) (intervalMs : Nat)
    (initialDelayMs : Nat) (now : Nat) : Nat × AsyncTimer :=
  if s.running then
    let id := s.nextTimerId
    let t := TimerTask.create id cb (now + initialDelayMs) intervalMs true
    (id, { s with nextTimerId := id + 1,
                  wakeSignals := s.wakeSignals + 1,
                  timerTasks := multimapInsert t s.timerTasks,
                  timerMap := mapInsert id t s.timerMap })
  else (0, s)

/-- Modelled from the spec: `Cancel(id)` (body not in the sources).
Removes the record from both views of the store if present and returns
true; returns false if the id is unknown (already completed, or lost the
race against the worker).  Cancellation deletes, it does not flag. -/
def Cancel (s : AsyncTimer) (timerId : Nat) : Bool × AsyncTimer :=
  if s.timerMap.any (fun p => p.1 == timerId) then
    (true, { s with
              timerTasks := s.timerTasks.eraseP (fun t => t.id == timerId),
              timerMap := s.timerMap.eraseP (fun p => p.1 == timerId) })
  else (false, s)

/-- Modelled from the spec: `CancelAll()` clears the store under the
lock. -/
def CancelAll (s : AsyncTimer) : AsyncTimer :=
  { s with timerTasks := [], timerMap := [] }

/-- Modelled from the spec: the store operation `popExpired(now)` on the
deadline-ordered view.  The worker repeatedly removes the front record
while its deadline is due; on the sorted view this takes the expired
prefix and leaves the rest.  Returns (expired records in pop order,
remaining view). -/
def popExpiredFrom (now : Nat) : List TimerTask →
    List TimerTask × List TimerTask
  | [] => ([], [])
  | t :: ts =>
    if t.nextExecutionTime ≤ now then
      let pr := popExpiredFrom now ts
      (t :: pr.1, pr.2)
    else ([], t :: ts)

/-- Removal of the popped ids from the id-keyed view: erasing each key of
a unique-key map is dropping every entry whose key is listed. -/
def removeIds (ids : List Nat) (m : List (Nat × TimerTask)) :
    List (Nat × TimerTask) :=
  m.filter (fun p => !(ids.contains p.1))

/-- Modelled from the spec: re-arming one popped record.  If it is
repeating and not cancelled, its next deadline becomes the previous
scheduled deadline plus the interval (never now + interval) and it is
reinserted into both views; otherwise the record is dropped. -/
def rearmOne (s : AsyncTimer) (t : TimerTask) : AsyncTimer :=
  if t.isRepeating && !t.isCancelled then
    let t2 := { t with nextExecutionTime := t.nextExecutionTime + t.interval }
    { s with timerTasks := multimapInsert t2 s.timerTasks,
             timerMap := mapInsert t2.id t2 s.timerMap }
  else s

/-- Modelled from the spec: `ExecuteExpiredTimers` (body not in the
sources), one pass of the worker at time `now`.  Pops every record whose
deadline is due from both views, submits the callback of each
non-cancelled popped record to the execution collaborator in pop order,
and re-arms the repeating ones.  Returns (records submitted, new state). -/
def ExecuteExpiredTimers (s : AsyncTimer) (now : Nat) :
    List TimerTask × AsyncTimer :=
  let pr := popExpiredFrom now s.timerTasks
  let s1 : AsyncTimer :=
    { s with timerTasks := pr.2,
             timerMap := removeIds (pr.1.map TimerTask.id) s.timerMap }
  (pr.1.filter (fun t => !t.isCancelled), pr.1.foldl rearmOne s1)

/-- Modelled from the spec: `Start()` (body not in the sources).  Fails
with -1 if already running or if the execution collaborator fails to
start (`poolOk = false`), leaving the state untouched; on success clears
any stale records left from before the restart, spawns the worker and
marks running.  Returns 0 on success. -/
def Start (s : AsyncTimer) (poolOk : Bool) : Int × AsyncTimer :=
  if s.running then (-1, s)
  else if !poolOk then (-1, s)
  else (0, { s with running := true, shouldStop := false,
                    workerSpawned := true, timerTasks := [], timerMap := [] })

/-- Modelled from the spec: `Stop()` (body not in the sources).
Idempotent: a no-op returning success when not running; otherwise sets the
stop flag, wakes and joins the worker, stops the collaborator and clears
the running flag.  Pending timers are not cleared here. -/
def Stop (s : AsyncTimer) : Int × AsyncTimer :=
  if s.running then
    (0, { s with running := false, shouldStop := true,
                 workerSpawned := false, wakeSignals := s.wakeSignals + 1 })
  else (0, s)

/-- Modelled from the spec: `IsRunning()`. -/
def IsRunning (s : AsyncTimer) : Bool :=
  s.running

/-- Modelled from the spec: `GetActiveTimerCount()` returns the size of
the store. -/
def GetActiveTimerCount (s : AsyncTimer) : Nat :=
  s.timerTasks.length

/-- One atomic step of the system: an API call on a caller thread or one
worker pass, each holding the shared mutex for its whole critical
section. -/
inductive Op where
  | start (poolOk : Bool)
  | stop
  | scheduleOnce (cb delayMs now : Nat)
  | scheduleRepeating (cb intervalMs initialDelayMs now : Nat)
  | cancel (timerId : Nat)
  | cancelAll
  | workerPass (now : Nat)
deriving Repr, DecidableEq

/-- State transition of one step (return values discarded). -/
def applyOp (s : AsyncTimer) : Op → AsyncTimer
  | Op.start poolOk => (Start s poolOk).2
  | Op.stop => (Stop s).2
  | Op.scheduleOnce cb d now => (ScheduleOnce s cb d now).2
  | Op.scheduleRepeating cb i d now => (ScheduleRepeating s cb i d now).2
  | Op.cancel timerId => (Cancel s timerId).2
  | Op.cancelAll => CancelAll s
  | Op.workerPass now => (ExecuteExpiredTimers s now).2

/-- States reachable from a freshly constructed scheduler by any
interleaving of API calls and worker passes. -/
inductive Reachable : AsyncTimer → Prop where
  | init : Reachable AsyncTimer.init
  | step (s : AsyncTimer) (o : Op) : Reachable s → Reachable (applyOp s o)

/-- Ids handed out by one step: a successful schedule call returns the
current value of the id counter, every other step returns no id. -/
def schedIdsOf (s : AsyncTimer) : Op → List Nat
  | Op.scheduleOnce _ _ _ => if s.running then [s.nextTimerId] else []
  | Op.scheduleRepeating _ _ _ _ => if s.running then [s.nextTimerId] else []
  | _ => []

/-- Ids returned by the successful schedule calls of a whole run, in call
order. -/
def runIds (s : AsyncTimer) : List Op → List Nat
  | [] => []
  | o :: os => schedIdsOf s o ++ runIds (applyOp s o) os

/-- Running scheduler holding exactly one record. -/
def singleState (t : TimerTask) : AsyncTimer :=
  { AsyncTimer.init with running := true, timerTasks := [t],
                         timerMap := [(t.id, t)] }

/-- The deadline scheduled for the k-th firing of a record: the first
deadline plus k times the interval. -/
def nthDeadline (t : TimerTask) (k : Nat) : Nat :=
  t.nextExecutionTime + k * t.interval

/-- Worker history of a lone repeating record: k worker passes, each run
exactly when the record's current deadline is due. -/
def fireTimes (t : TimerTask) : Nat → AsyncTimer
  | 0 => singleState t
  | k + 1 => (ExecuteExpiredTimers (fireTimes t k) (nthDeadline t k)).2

/-! Helper lemmas about the two insertion operations. -/

theorem mem_multimapInsert {x t : TimerTask} {l : List TimerTask} :
    x ∈ multimapInsert t l ↔ x = t ∨ x ∈ l := by
  induction l with
  | nil => simp [multimapInsert]
  | cons y ys ih =>
    simp only [multimapInsert]
    by_cases h : t.nextExecutionTime < y.nextExecutionTime
    · simp only [if_pos h, List.mem_cons]
    · simp only [if_neg h, List.mem_cons, ih]
      tauto

theorem multimapInsert_perm (t : TimerTask) (l : List TimerTask) :
    (multimapInsert t l).Perm (t :: l) := by
  induction l with
  | nil => simp [multimapInsert]
  | cons y ys ih =>
    simp only [multimapInsert]
    by_cases h : t.nextExecutionTime < y.nextExecutionTime
    · simp [h]
    · simp only [if_neg h]
      exact (ih.cons y).trans (List.Perm.swap t y ys)

theorem multimapInsert_sorted {t : TimerTask} {l : List TimerTask}
    (hl : l.Pairwise (fun a b => a.nextExecutionTime ≤ b.nextExecutionTime)) :
    (multimapInsert t l).Pairwise
      (fun a b => a.nextExecutionTime ≤ b.nextExecutionTime) := by
  induction l with
  | nil => simp [multimapInsert]
  | cons y ys ih =>
    rcases List.pairwise_cons.1 hl with ⟨hy, hys⟩
    simp only [multimapInsert]
    by_cases h : t.nextExecutionTime < y.nextExecutionTime
    · rw [if_pos h]
      refine List.pairwise_cons.2 ⟨?_, hl⟩
      intro b hb
      rcases List.mem_cons.1 hb with rfl | hb
      · exact Nat.le_of_lt h
      · exact Nat.le_trans (Nat.le_of_lt h) (hy b hb)
    · rw [if_neg h]
      refine List.pairwise_cons.2 ⟨?_, ih hys⟩
      intro b hb
      rcases mem_multimapInsert.1 hb with rfl | hb
      · exact Nat.le_of_not_lt h
      · exact hy b hb

/-- Stability of multimap insertion: the new record goes after every
record whose execution time is not later, before every strictly later
one, so records with equal deadlines stay in insertion order. -/
theorem multimapInsert_eq_append (t : TimerTask) (l : List TimerTask) :
    multimapInsert t l =
      l.takeWhile (fun x => !(t.nextExecutionTime < x.nextExecutionTime)) ++
        t :: l.dropWhile (fun x => !(t.nextExecutionTime < x.nextExecutionTime)) := by
  induction l with
  | nil => simp [multimapInsert]
  | cons y ys ih =>
    simp only [multimapInsert, List.takeWhile, List.dropWhile]
    by_cases h : t.nextExecutionTime < y.nextExecutionTime
    · simp [h]
    · simp [h, ih]

theorem mem_mapInsert {p : Nat × TimerTask} {k : Nat} {t : TimerTask}
    {m : List (Nat × TimerTask)} :
    p ∈ mapInsert k t m ↔ p = (k, t) ∨ p ∈ m := by
  induction m with
  | nil => simp [mapInsert]
  | cons q qs ih =>
    simp only [mapInsert]
    by_cases h : k < q.1
    · simp only [if_pos h, List.mem_cons]
    · simp only [if_neg h, List.mem_cons, ih]
      tauto

theorem mapInsert_perm (k : Nat) (t : TimerTask) (m : List (Nat × TimerTask)) :
    (mapInsert k t m).Perm ((k, t) :: m) := by
  induction m with
  | nil => simp [mapInsert]
  | cons q qs ih =>
    simp only [mapInsert]
    by_cases h : k < q.1
    · simp [h]
    · simp only [if_neg h]
      exact (ih.cons q).trans (List.Perm.swap (k, t) q qs)

theorem mapInsert_sorted {k : Nat} {t : TimerTask}
    {m : List (Nat × TimerTask)}
    (hm : m.Pairwise (fun p q => p.1 < q.1)) (hk : ∀ p ∈ m, p.1 ≠ k) :
    (mapInsert k t m).Pairwise (fun p q => p.1 < q.1) := by
  induction m with
  | nil => simp [mapInsert]
  | cons q qs ih =>
    rcases List.pairwise_cons.1 hm with ⟨hq, hqs⟩
    simp only [mapInsert]
    by_cases h : k < q.1
    · rw [if_pos h]
      refine List.pairwise_cons.2 ⟨?_, hm⟩
      intro b hb
      rcases List.mem_cons.1 hb with rfl | hb
      · exact h
      · exact Nat.lt_trans h (hq b hb)
    · have hqk : q.1 < k :=
        Nat.lt_of_le_of_ne (Nat.le_of_not_lt h)
          (hk q (List.mem_cons_self q qs))
      rw [if_neg h]
      refine List.pairwise_cons.2
        ⟨?_, ih hqs (fun p hp => hk p (List.mem_cons_of_mem q hp))⟩
      intro b hb
      rcases mem_mapInsert.1 hb with rfl | hb
      · exact hqk
      · exact hq b hb

/-! Helper lemmas about popping and erasing. -/

theorem popExpiredFrom_eq (now : Nat) (l : List TimerTask) :
    popExpiredFrom now l =
      (l.takeWhile (fun t => t.nextExecutionTime ≤ now),
       l.dropWhile (fun t => t.nextExecutionTime ≤ now)) := by
  induction l with
  | nil => simp [popExpiredFrom]
  | cons t ts ih =>
    simp only [popExpiredFrom, List.takeWhile, List.dropWhile]
    by_cases h : t.nextExecutionTime ≤ now
    · simp [h, ih]
    · simp [h]

theorem sorted_takeWhile_eq_filter {now : Nat} {l : List TimerTask}
    (hl : l.Pairwise (fun a b => a.nextExecutionTime ≤ b.nextExecutionTime)) :
    l.takeWhile (fun t => t.nextExecutionTime ≤ now) =
      l.filter (fun t => t.nextExecutionTime ≤ now) := by
  induction l with
  | nil => rfl
  | cons t ts ih =>
    rcases List.pairwise_cons.1 hl with ⟨ht, hts⟩
    by_cases h : t.nextExecutionTime ≤ now
    · simp only [List.takeWhile_cons, List.filter_cons, decide_eq_true h,
        if_pos trivial, ih hts]
    · have hall : ∀ x ∈ ts, ¬ x.nextExecutionTime ≤ now := by
        intro x hx hxle
        exact h (Nat.le_trans (ht x hx) hxle)
      have hnil : ts.filter (fun t => decide (t.nextExecutionTime ≤ now)) = [] :=
        List.filter_eq_nil_iff.2 (by intro x hx; simpa using hall x hx)
      simp only [List.takeWhile_cons, List.filter_cons, decide_eq_false h]
      simp only [Bool.false_eq_true, if_false, hnil]

theorem sorted_dropWhile_eq_filter {now : Nat} {l : List TimerTask}
    (hl : l.Pairwise (fun a b => a.nextExecutionTime ≤ b.nextExecutionTime)) :
    l.dropWhile (fun t => t.nextExecutionTime ≤ now) =
      l.filter (fun t => now < t.nextExecutionTime) := by
  induction l with
  | nil => rfl
  | cons t ts ih =>
    rcases List.pairwise_cons.1 hl with ⟨ht, hts⟩
    by_cases h : t.nextExecutionTime ≤ now
    · have hnlt : ¬ now < t.nextExecutionTime := Nat.not_lt.2 h
      simp only [List.dropWhile_cons, List.filter_cons, decide_eq_true h,
        decide_eq_false hnlt, if_pos trivial, Bool.false_eq_true, if_false,
        ih hts]
    · have hgt : now < t.nextExecutionTime := Nat.lt_of_not_le h
      have hall : ∀ x ∈ ts, now < x.nextExecutionTime := by
        intro x hx
        exact Nat.lt_of_lt_of_le hgt (ht x hx)
      have hself : ts.filter (fun t => decide (now < t.nextExecutionTime)) = ts :=
        List.filter_eq_self.2 (by intro x hx; simpa using hall x hx)
      simp only [List.dropWhile_cons, List.filter_cons, decide_eq_false h,
        decide_eq_true hgt, Bool.false_eq_true, if_false, if_pos trivial, hself]

/-- Under unique projections, erasing the first hit equals filtering the
key out, because at most one element can hit. -/
theorem eraseP_eq_filter {α : Type} (f : α → Nat) (n : Nat) (l : List α)
    (h : (l.map f).Nodup) :
    l.eraseP (fun a => f a == n) = l.filter (fun a => !(f a == n)) := by
  induction l with
  | nil => rfl
  | cons a as ih =>
    rw [List.map_cons, List.nodup_cons] at h
    obtain ⟨ha, has⟩ := h
    by_cases hfa : f a = n
    · subst hfa
      have hnone : ∀ b ∈ as, ¬ (f b == f a) = true := by
        intro b hb hbe
        exact ha (by
          have : f b = f a := by simpa using hbe
          rw [← this]
          exact List.mem_map_of_mem f hb)
      have hself : as.filter (fun b => !(f b == f a)) = as :=
        List.filter_eq_self.2 (by
          intro b hb
          simpa using hnone b hb)
      rw [List.eraseP_cons, List.filter_cons]
      simp only [beq_self_eq_true, cond_true, Bool.not_true,
        Bool.false_eq_true, if_false, hself]
    · have hb : (f a == n) = false := by simpa using hfa
      rw [List.eraseP_cons, List.filter_cons]
      simp only [hb, cond_false, Bool.not_false, if_pos trivial, ih has]

/-! The store invariant maintained by every operation. -/

/-- State invariant of the scheduler: the id counter is at least 1, the
worker thread exists exactly while running, every map entry is keyed by
the id of its record, keys are positive, below the counter and strictly
sorted, the deadline view is sorted by execution time, and the two views
hold the same multiset of records. -/
structure Inv (s : AsyncTimer) : Prop where
  counter_pos : 1 ≤ s.nextTimerId
  running_worker : s.workerSpawned = s.running
  key_id : ∀ p ∈ s.timerMap, p.1 = p.2.id
  key_pos : ∀ p ∈ s.timerMap, 0 < p.1
  key_lt : ∀ p ∈ s.timerMap, p.1 < s.nextTimerId
  keys_sorted : s.timerMap.Pairwise (fun p q => p.1 < q.1)
  tasks_sorted : s.timerTasks.Pairwise
    (fun a b => a.nextExecutionTime ≤ b.nextExecutionTime)
  views_perm : s.timerTasks.Perm (s.timerMap.map Prod.snd)

theorem inv_init : Inv AsyncTimer.init := by
  refine ⟨?_, ?_, ?_, ?_, ?_, ?_, ?_, ?_⟩ <;> simp [AsyncTimer.init]

theorem Inv.keys_nodup {s : AsyncTimer} (h : Inv s) :
    (s.timerMap.map Prod.fst).Nodup := by
  have := h.keys_sorted
  rw [List.Nodup, List.pairwise_map]
  exact this.imp (fun hlt => Nat.ne_of_lt hlt)

theorem map_snd_eq_map_fst {m : List (Nat × TimerTask)}
    (h : ∀ p ∈ m, p.1 = p.2.id) :
    (m.map Prod.snd).map TimerTask.id = m.map Prod.fst := by
  induction m with
  | nil => rfl
  | cons p ps ih =>
    simp only [List.map_cons]
    rw [ih (fun q hq => h q (List.mem_cons_of_mem p hq)),
      ← h p (List.mem_cons_self p ps)]

theorem Inv.tasks_ids_nodup {s : AsyncTimer} (h : Inv s) :
    (s.timerTasks.map TimerTask.id).Nodup := by
  have hperm : (s.timerTasks.map TimerTask.id).Perm
      ((s.timerMap.map Prod.snd).map TimerTask.id) :=
    h.views_perm.map TimerTask.id
  rw [map_snd_eq_map_fst h.key_id] at hperm
  exact h.keys_nodup.perm hperm.symm

theorem Inv.task_id_pos {s : AsyncTimer} (h : Inv s) {t : TimerTask}
    (ht : t ∈ s.timerTasks) : 0 < t.id := by
  have hm : t ∈ s.timerMap.map Prod.snd := h.views_perm.mem_iff.1 ht
  rcases List.mem_map.1 hm with ⟨p, hp, rfl⟩
  rw [← h.key_id p hp]
  exact h.key_pos p hp

theorem Inv.task_id_lt {s : AsyncTimer} (h : Inv s) {t : TimerTask}
    (ht : t ∈ s.timerTasks) : t.id < s.nextTimerId := by
  have hm : t ∈ s.timerMap.map Prod.snd := h.views_perm.mem_iff.1 ht
  rcases List.mem_map.1 hm with ⟨p, hp, rfl⟩
  rw [← h.key_id p hp]
  exact h.key_lt p hp

theorem map_snd_filter_key (g : Nat → Bool) {m : List (Nat × TimerTask)}
    (h : ∀ p ∈ m, p.1 = p.2.id) :
    (m.filter (fun p => g p.1)).map Prod.snd =
      (m.map Prod.snd).filter (fun t => g t.id) := by
  induction m with
  | nil => rfl
  | cons p ps ih =>
    have hp := h p (List.mem_cons_self p ps)
    have ihp := ih (fun q hq => h q (List.mem_cons_of_mem p hq))
    simp only [List.filter_cons, List.map_cons, hp]
    by_cases hg : g p.2.id = true
    · simp only [hg, if_pos trivial, List.map_cons, ihp]
    · simp only [Bool.not_eq_true] at hg
      simp only [hg, Bool.false_eq_true, if_false, ihp]

/-! Preservation of the invariant by each operation. -/

theorem inv_insert_fresh {s : AsyncTimer} (h : Inv s) (t : TimerTask)
    (hid : t.id = s.nextTimerId) (w : Nat) :
    Inv { s with nextTimerId := s.nextTimerId + 1,
                 wakeSignals := w,
                 timerTasks := multimapInsert t s.timerTasks,
                 timerMap := mapInsert t.id t s.timerMap } := by
  refine ⟨?_, ?_, ?_, ?_, ?_, ?_, ?_, ?_⟩
  · exact Nat.le_trans h.counter_pos (Nat.le_succ _)
  · exact h.running_worker
  · intro p hp
    rcases mem_mapInsert.1 hp with rfl | hp
    · rfl
    · exact h.key_id p hp
  · intro p hp
    rcases mem_mapInsert.1 hp with rfl | hp
    · simp only [hid]
      exact Nat.lt_of_lt_of_le Nat.zero_lt_one h.counter_pos
    · exact h.key_pos p hp
  · intro p hp
    rcases mem_mapInsert.1 hp with rfl | hp
    · simp only [hid]
      exact Nat.lt_succ_self s.nextTimerId
    · exact Nat.lt_trans (h.key_lt p hp) (Nat.lt_succ_self _)
  · exact mapInsert_sorted h.keys_sorted
      (fun p hp => by rw [hid]; exact Nat.ne_of_lt (h.key_lt p hp))
  · exact multimapInsert_sorted h.tasks_sorted
  · exact (multimapInsert_perm t s.timerTasks).trans
      ((h.views_perm.cons t).trans
        ((mapInsert_perm t.id t s.timerMap).map Prod.snd).symm)

theorem inv_scheduleOnce {s : AsyncTimer} (h : Inv s) (cb d now : Nat) :
    Inv (ScheduleOnce s cb d now).2 := by
  rw [ScheduleOnce]
  by_cases hr : s.running
  · rw [if_pos hr]
    exact inv_insert_fresh h _ rfl _
  · rw [if_neg hr]
    exact h

theorem inv_scheduleRepeating {s : AsyncTimer} (h : Inv s) (cb i d now : Nat) :
    Inv (ScheduleRepeating s cb i d now).2 := by
  rw [ScheduleRepeating]
  by_cases hr : s.running
  · rw [if_pos hr]
    exact inv_insert_fresh h _ rfl _
  · rw [if_neg hr]
    exact h

theorem cancel_state_eq {s : AsyncTimer} (h : Inv s) (tid : Nat) :
    (Cancel s tid).2 =
      if s.timerMap.any (fun p => p.1 == tid) then
        { s with
          timerTasks := s.timerTasks.filter (fun t => !(t.id == tid)),
          timerMap := s.timerMap.filter (fun p => !(p.1 == tid)) }
      else s := by
  rw [Cancel]
  by_cases hc : s.timerMap.any (fun p => p.1 == tid)
  · rw [if_pos hc, if_pos hc,
      eraseP_eq_filter TimerTask.id tid s.timerTasks h.tasks_ids_nodup,
      eraseP_eq_filter Prod.fst tid s.timerMap h.keys_nodup]
  · rw [if_neg hc, if_neg hc]

theorem inv_cancel {s : AsyncTimer} (h : Inv s) (tid : Nat) :
    Inv (Cancel s tid).2 := by
  rw [cancel_state_eq h]
  by_cases hc : s.timerMap.any (fun p => p.1 == tid)
  · rw [if_pos hc]
    refine ⟨h.counter_pos, h.running_worker, ?_, ?_, ?_, ?_, ?_, ?_⟩
    · intro p hp
      exact h.key_id p (List.mem_of_mem_filter hp)
    · intro p hp
      exact h.key_pos p (List.mem_of_mem_filter hp)
    · intro p hp
      exact h.key_lt p (List.mem_of_mem_filter hp)
    · exact List.Pairwise.sublist (List.filter_sublist _) h.keys_sorted
    · exact List.Pairwise.sublist (List.filter_sublist _) h.tasks_sorted
    · rw [map_snd_filter_key (fun k => !(k == tid)) h.key_id]
      exact h.views_perm.filter _
  · rw [if_neg hc]
    exact h

theorem inv_cancelAll {s : AsyncTimer} (h : Inv s) : Inv (CancelAll s) := by
  refine ⟨h.counter_pos, h.running_worker, ?_, ?_, ?_, ?_, ?_, ?_⟩ <;>
    simp [CancelAll]

theorem inv_start {s : AsyncTimer} (h : Inv s) (poolOk : Bool) :
    Inv (Start s poolOk).2 := by
  rw [Start]
  by_cases hr : s.running
  · rw [if_pos hr]
    exact h
  · rw [if_neg hr]
    by_cases hp : poolOk
    · rw [hp]
      refine ⟨h.counter_pos, rfl, ?_, ?_, ?_, ?_, ?_, ?_⟩ <;> simp
    · simp only [Bool.not_eq_true] at hp
      rw [hp]
      exact h

theorem inv_stop {s : AsyncTimer} (h : Inv s) : Inv (Stop s).2 := by
  rw [Stop]
  by_cases hr : s.running
  · rw [if_pos hr]
    exact ⟨h.counter_pos, rfl, h.key_id, h.key_pos, h.key_lt,
      h.keys_sorted, h.tasks_sorted, h.views_perm⟩
  · rw [if_neg hr]
    exact h

/-! Preservation of the invariant by the worker pass. -/

theorem rearmOne_nextTimerId (s : AsyncTimer) (t : TimerTask) :
    (rearmOne s t).nextTimerId = s.nextTimerId := by
  rw [rearmOne]
  by_cases h : t.isRepeating && !t.isCancelled
  · rw [if_pos h]
  · rw [if_neg h]

theorem rearmOne_running (s : AsyncTimer) (t : TimerTask) :
    (rearmOne s t).running = s.running := by
  rw [rearmOne]
  by_cases h : t.isRepeating && !t.isCancelled
  · rw [if_pos h]
  · rw [if_neg h]

theorem foldl_rearm_nextTimerId (l : List TimerTask) (s : AsyncTimer) :
    (l.foldl rearmOne s).nextTimerId = s.nextTimerId := by
  induction l generalizing s with
  | nil => rfl
  | cons t ts ih => rw [List.foldl_cons, ih, rearmOne_nextTimerId]

theorem foldl_rearm_running (l : List TimerTask) (s : AsyncTimer) :
    (l.foldl rearmOne s).running = s.running := by
  induction l generalizing s with
  | nil => rfl
  | cons t ts ih => rw [List.foldl_cons, ih, rearmOne_running]

theorem inv_insert_any {s : AsyncTimer} (h : Inv s) (t : TimerTask)
    (hpos : 0 < t.id) (hlt : t.id < s.nextTimerId)
    (hfresh : ∀ p ∈ s.timerMap, p.1 ≠ t.id) :
    Inv { s with timerTasks := multimapInsert t s.timerTasks,
                 timerMap := mapInsert t.id t s.timerMap } := by
  refine ⟨h.counter_pos, h.running_worker, ?_, ?_, ?_, ?_, ?_, ?_⟩
  · intro p hp
    rcases mem_mapInsert.1 hp with rfl | hp
    · rfl
    · exact h.key_id p hp
  · intro p hp
    rcases mem_mapInsert.1 hp with rfl | hp
    · exact hpos
    · exact h.key_pos p hp
  · intro p hp
    rcases mem_mapInsert.1 hp with rfl | hp
    · exact hlt
    · exact h.key_lt p hp
  · exact mapInsert_sorted h.keys_sorted hfresh
  · exact multimapInsert_sorted h.tasks_sorted
  · exact (multimapInsert_perm t s.timerTasks).trans
      ((h.views_perm.cons t).trans
        ((mapInsert_perm t.id t s.timerMap).map Prod.snd).symm)

theorem inv_rearm_fold (l : List TimerTask) (s : AsyncTimer)
    (h : Inv s)
    (hpos : ∀ t ∈ l, 0 < t.id)
    (hlt : ∀ t ∈ l, t.id < s.nextTimerId)
    (hnd : (l.map TimerTask.id).Nodup)
    (hdisj : ∀ t ∈ l, ∀ p ∈ s.timerMap, p.1 ≠ t.id) :
    Inv (l.foldl rearmOne s) ∧
      ∀ p ∈ (l.foldl rearmOne s).timerMap,
        p.1 ∈ s.timerMap.map Prod.fst ∨
          p.1 ∈ (l.filter (fun t => t.isRepeating && !t.isCancelled)).map
            TimerTask.id := by
  induction l generalizing s with
  | nil =>
    exact ⟨h, fun p hp => Or.inl (List.mem_map_of_mem Prod.fst hp)⟩
  | cons t ts ih =>
    rw [List.map_cons, List.nodup_cons] at hnd
    obtain ⟨htid, hndts⟩ := hnd
    rw [List.foldl_cons]
    by_cases hrep : (t.isRepeating && !t.isCancelled) = true
    · have hstep : rearmOne s t =
          { s with
            timerTasks := multimapInsert
              { t with nextExecutionTime := t.nextExecutionTime + t.interval }
              s.timerTasks,
            timerMap := mapInsert t.id
              { t with nextExecutionTime := t.nextExecutionTime + t.interval }
              s.timerMap } := by
        rw [rearmOne, if_pos hrep]
      have hmem := List.mem_cons_self t ts
      have hinv2 : Inv (rearmOne s t) := by
        rw [hstep]
        exact inv_insert_any h _ (hpos t hmem) (hlt t hmem)
          (hdisj t hmem)
      have hrec := ih (rearmOne s t) hinv2
        (fun u hu => hpos u (List.mem_cons_of_mem t hu))
        (by
          intro u hu
          rw [rearmOne_nextTimerId]
          exact hlt u (List.mem_cons_of_mem t hu))
        hndts
        (by
          intro u hu p hp
          rw [hstep] at hp
          rcases mem_mapInsert.1 hp with rfl | hp
          · intro hcontra
            apply htid
            have hid2 : t.id = u.id := hcontra
            rw [hid2]
            exact List.mem_map_of_mem TimerTask.id hu
          · exact hdisj u (List.mem_cons_of_mem t hu) p hp)
      have hfcons : (t :: ts).filter (fun u => u.isRepeating && !u.isCancelled) =
          t :: ts.filter (fun u => u.isRepeating && !u.isCancelled) := by
        rw [List.filter_cons, if_pos (by simp [hrep])]
      refine ⟨hrec.1, ?_⟩
      intro p hp
      rcases hrec.2 p hp with hin | hin
      · rw [hstep] at hin
        rcases List.mem_map.1 hin with ⟨q, hq, hq1⟩
        rw [← hq1]
        rcases mem_mapInsert.1 hq with rfl | hq
        · refine Or.inr ?_
          rw [hfcons, List.map_cons]
          exact List.mem_cons_self _ _
        · exact Or.inl (List.mem_map_of_mem Prod.fst hq)
      · refine Or.inr ?_
        rw [hfcons, List.map_cons]
        exact List.mem_cons_of_mem _ hin
    · have hstep : rearmOne s t = s := by
        rw [rearmOne, if_neg hrep]
      rw [hstep]
      have hrec := ih s h
        (fun u hu => hpos u (List.mem_cons_of_mem t hu))
        (fun u hu => hlt u (List.mem_cons_of_mem t hu))
        hndts
        (fun u hu p hp => hdisj u (List.mem_cons_of_mem t hu) p hp)
      have hfcons : (t :: ts).filter (fun u => u.isRepeating && !u.isCancelled) =
          ts.filter (fun u => u.isRepeating && !u.isCancelled) := by
        rw [List.filter_cons, if_neg (by simpa using hrep)]
      refine ⟨hrec.1, ?_⟩
      intro p hp
      rcases hrec.2 p hp with hin | hin
      · exact Or.inl hin
      · refine Or.inr ?_
        rw [hfcons]
        exact hin

theorem popExpiredFrom_fst {s : AsyncTimer} (h : Inv s) (now : Nat) :
    (popExpiredFrom now s.timerTasks).1 =
      s.timerTasks.filter (fun t => t.nextExecutionTime ≤ now) := by
  rw [popExpiredFrom_eq]
  exact sorted_takeWhile_eq_filter h.tasks_sorted

theorem popExpiredFrom_snd {s : AsyncTimer} (h : Inv s) (now : Nat) :
    (popExpiredFrom now s.timerTasks).2 =
      s.timerTasks.filter (fun t => now < t.nextExecutionTime) := by
  rw [popExpiredFrom_eq]
  exact sorted_dropWhile_eq_filter h.tasks_sorted

/-- Membership of the popped-id list is exactly being an expired record,
thanks to uniqueness of ids in the store. -/
theorem expired_ids_contains {s : AsyncTimer} (h : Inv s) (now : Nat)
    {t : TimerTask} (ht : t ∈ s.timerTasks) :
    ((popExpiredFrom now s.timerTasks).1.map TimerTask.id).contains t.id =
      decide (t.nextExecutionTime ≤ now) := by
  rw [popExpiredFrom_fst h]
  by_cases hd : t.nextExecutionTime ≤ now
  · have : t.id ∈ (s.timerTasks.filter
        (fun t => t.nextExecutionTime ≤ now)).map TimerTask.id :=
      List.mem_map_of_mem TimerTask.id
        (List.mem_filter.2 ⟨ht, by simpa using hd⟩)
    rw [decide_eq_true hd]
    exact List.elem_eq_true_of_mem this
  · rw [decide_eq_false hd]
    by_contra hcontra
    rw [Bool.not_eq_false] at hcontra
    have hmem := List.mem_of_elem_eq_true hcontra
    rcases List.mem_map.1 hmem with ⟨u, hu, huid⟩
    have hu2 := List.mem_filter.1 hu
    have : u = t := List.inj_on_of_nodup_map h.tasks_ids_nodup hu2.1 ht huid
    rw [this] at hu2
    exact hd (by simpa using hu2.2)

theorem inv_pop_phase {s : AsyncTimer} (h : Inv s) (now : Nat) :
    Inv { s with
          timerTasks := (popExpiredFrom now s.timerTasks).2,
          timerMap := removeIds
            ((popExpiredFrom now s.timerTasks).1.map TimerTask.id)
            s.timerMap } := by
  refine ⟨h.counter_pos, h.running_worker, ?_, ?_, ?_, ?_, ?_, ?_⟩
  · intro p hp
    exact h.key_id p (List.mem_of_mem_filter hp)
  · intro p hp
    exact h.key_pos p (List.mem_of_mem_filter hp)
  · intro p hp
    exact h.key_lt p (List.mem_of_mem_filter hp)
  · exact List.Pairwise.sublist (List.filter_sublist _) h.keys_sorted
  · rw [popExpiredFrom_snd h]
    exact List.Pairwise.sublist (List.filter_sublist _) h.tasks_sorted
  · rw [popExpiredFrom_snd h, removeIds,
      map_snd_filter_key
        (fun k => !(((popExpiredFrom now s.timerTasks).1.map TimerTask.id).contains k))
        h.key_id]
    have hcongr : s.timerTasks.filter (fun t => now < t.nextExecutionTime) =
        s.timerTasks.filter
          (fun t => !(((popExpiredFrom now s.timerTasks).1.map TimerTask.id).contains t.id)) := by
      refine List.filter_congr ?_
      intro t ht
      rw [expired_ids_contains h now ht]
      by_cases hd : t.nextExecutionTime ≤ now
      · rw [decide_eq_true hd, decide_eq_false (Nat.not_lt.2 hd)]
        rfl
      · rw [decide_eq_false hd, decide_eq_true (Nat.lt_of_not_le hd)]
        rfl
    rw [hcongr]
    exact h.views_perm.filter _

theorem executeExpired_fst (s : AsyncTimer) (now : Nat) :
    (ExecuteExpiredTimers s now).1 =
      (popExpiredFrom now s.timerTasks).1.filter (fun t => !t.isCancelled) :=
  rfl

theorem executeExpired_snd (s : AsyncTimer) (now : Nat) :
    (ExecuteExpiredTimers s now).2 =
      (popExpiredFrom now s.timerTasks).1.foldl rearmOne
        { s with
          timerTasks := (popExpiredFrom now s.timerTasks).2,
          timerMap := removeIds
            ((popExpiredFrom now s.timerTasks).1.map TimerTask.id)
            s.timerMap } :=
  rfl

theorem expired_sub_tasks {s : AsyncTimer} (h : Inv s) {now : Nat}
    {t : TimerTask} (ht : t ∈ (popExpiredFrom now s.timerTasks).1) :
    t ∈ s.timerTasks ∧ t.nextExecutionTime ≤ now := by
  rw [popExpiredFrom_fst h] at ht
  have := List.mem_filter.1 ht
  exact ⟨this.1, by simpa using this.2⟩

theorem expired_ids_nodup {s : AsyncTimer} (h : Inv s) (now : Nat) :
    ((popExpiredFrom now s.timerTasks).1.map TimerTask.id).Nodup := by
  rw [popExpiredFrom_fst h]
  exact List.Nodup.sublist
    ((List.filter_sublist _).map TimerTask.id) h.tasks_ids_nodup

theorem inv_workerPass_aux {s : AsyncTimer} (h : Inv s) (now : Nat) :
    Inv (ExecuteExpiredTimers s now).2 ∧
      ∀ p ∈ (ExecuteExpiredTimers s now).2.timerMap,
        p.1 ∈ (removeIds
            ((popExpiredFrom now s.timerTasks).1.map TimerTask.id)
            s.timerMap).map Prod.fst ∨
          p.1 ∈ ((popExpiredFrom now s.timerTasks).1.filter
            (fun t => t.isRepeating && !t.isCancelled)).map TimerTask.id := by
  rw [executeExpired_snd]
  exact inv_rearm_fold _ _ (inv_pop_phase h now)
    (fun t ht => h.task_id_pos (expired_sub_tasks h ht).1)
    (fun t ht => h.task_id_lt (expired_sub_tasks h ht).1)
    (expired_ids_nodup h now)
    (by
      intro t ht p hp
      have hp2 := List.mem_filter.1 hp
      have hnotin : p.1 ∉ (popExpiredFrom now s.timerTasks).1.map TimerTask.id := by
        intro hcontra
        have hc : ((popExpiredFrom now s.timerTasks).1.map
            TimerTask.id).contains p.1 = true :=
          List.elem_eq_true_of_mem hcontra
        have hneg := hp2.2
        rw [hc] at hneg
        simp at hneg
      intro hcontra
      exact hnotin (hcontra ▸ List.mem_map_of_mem TimerTask.id ht))

theorem inv_workerPass {s : AsyncTimer} (h : Inv s) (now : Nat) :
    Inv (ExecuteExpiredTimers s now).2 :=
  (inv_workerPass_aux h now).1

theorem inv_applyOp {s : AsyncTimer} (h : Inv s) (o : Op) :
    Inv (applyOp s o) := by
  cases o with
  | start poolOk => exact inv_start h poolOk
  | stop => exact inv_stop h
  | scheduleOnce cb d now => exact inv_scheduleOnce h cb d now
  | scheduleRepeating cb i d now => exact inv_scheduleRepeating h cb i d now
  | cancel timerId => exact inv_cancel h timerId
  | cancelAll => exact inv_cancelAll h
  | workerPass now => exact inv_workerPass h now

theorem reachable_inv {s : AsyncTimer} (h : Reachable s) : Inv s := by
  induction h with
  | init => exact inv_init
  | step s o _ ih => exact inv_applyOp ih o

/-! Shared lemmas about cancellation and the worker's re-arm fold. -/

theorem cancel_true_iff {s : AsyncTimer} (h : Inv s) (tid : Nat) :
    (Cancel s tid).1 = true ↔ ∃ t ∈ s.timerTasks, t.id = tid := by
  rw [Cancel]
  by_cases hc : s.timerMap.any (fun p => p.1 == tid)
  · rw [if_pos hc]
    simp only [true_iff]
    rcases List.any_eq_true.1 hc with ⟨p, hp, hpe⟩
    refine ⟨p.2, h.views_perm.mem_iff.2 (List.mem_map_of_mem Prod.snd hp), ?_⟩
    rw [← h.key_id p hp]
    exact (by simpa using hpe)
  · rw [if_neg hc]
    simp only [Bool.false_eq_true, false_iff]
    intro hcontra
    rcases hcontra with ⟨t, ht, rfl⟩
    apply hc
    have hm : t ∈ s.timerMap.map Prod.snd := h.views_perm.mem_iff.1 ht
    rcases List.mem_map.1 hm with ⟨p, hp, rfl⟩
    exact List.any_eq_true.2 ⟨p, hp, by rw [h.key_id p hp]; exact beq_self_eq_true _⟩

theorem cancel_false_of_absent {s : AsyncTimer} {tid : Nat}
    (h : ∀ p ∈ s.timerMap, p.1 ≠ tid) : (Cancel s tid).1 = false := by
  rw [Cancel, if_neg]
  intro hc
  rcases List.any_eq_true.1 hc with ⟨p, hp, hpe⟩
  exact h p hp (by simpa using hpe)

theorem cancel_removes_map {s : AsyncTimer} (h : Inv s) (tid : Nat) :
    ∀ p ∈ (Cancel s tid).2.timerMap, p.1 ≠ tid := by
  rw [cancel_state_eq h]
  by_cases hc : s.timerMap.any (fun p => p.1 == tid)
  · rw [if_pos hc]
    intro p hp
    have := (List.mem_filter.1 hp).2
    simpa using this
  · rw [if_neg hc]
    intro p hp hcontra
    apply hc
    exact List.any_eq_true.2 ⟨p, hp, by simp [hcontra]⟩

theorem cancel_removes_tasks {s : AsyncTimer} (h : Inv s) (tid : Nat) :
    ∀ t ∈ (Cancel s tid).2.timerTasks, t.id ≠ tid := by
  intro t ht
  have hinv2 : Inv (Cancel s tid).2 := inv_cancel h tid
  have hm : t ∈ (Cancel s tid).2.timerMap.map Prod.snd :=
    hinv2.views_perm.mem_iff.1 ht
  rcases List.mem_map.1 hm with ⟨p, hp, rfl⟩
  rw [← hinv2.key_id p hp]
  exact cancel_removes_map h tid p hp

/-- The deadline view after the re-arm fold is computed from the deadline
view alone: each repeating, non-cancelled record is inserted with its
deadline advanced by its interval. -/
theorem foldl_rearm_tasks (l : List TimerTask) (s : AsyncTimer) :
    (l.foldl rearmOne s).timerTasks =
      l.foldl
        (fun acc t =>
          if t.isRepeating && !t.isCancelled then
            multimapInsert
              { t with nextExecutionTime := t.nextExecutionTime + t.interval }
              acc
          else acc)
        s.timerTasks := by
  induction l generalizing s with
  | nil => rfl
  | cons t ts ih =>
    rw [List.foldl_cons, List.foldl_cons, ih]
    by_cases hrep : (t.isRepeating && !t.isCancelled) = true
    · rw [rearmOne, if_pos hrep, if_pos hrep]
    · rw [rearmOne, if_neg hrep, if_neg hrep]

theorem foldl_rearm_mem_mono {x : TimerTask} (l : List TimerTask)
    (s : AsyncTimer) (hx : x ∈ s.timerTasks) :
    x ∈ (l.foldl rearmOne s).timerTasks := by
  induction l generalizing s with
  | nil => exact hx
  | cons t ts ih =>
    rw [List.foldl_cons]
    refine ih (rearmOne s t) ?_
    rw [rearmOne]
    by_cases hrep : (t.isRepeating && !t.isCancelled) = true
    · rw [if_pos hrep]
      exact mem_multimapInsert.2 (Or.inr hx)
    · rw [if_neg hrep]
      exact hx

theorem foldl_rearm_mem_rearmed {t : TimerTask} (l : List TimerTask)
    (s : AsyncTimer) (ht : t ∈ l)
    (hrep : t.isRepeating = true) (hcan : t.isCancelled = false) :
    { t with nextExecutionTime := t.nextExecutionTime + t.interval } ∈
      (l.foldl rearmOne s).timerTasks := by
  induction l generalizing s with
  | nil => cases ht
  | cons u us ih =>
    rw [List.foldl_cons]
    rcases List.mem_cons.1 ht with rfl | ht
    · refine foldl_rearm_mem_mono us _ ?_
      rw [rearmOne, if_pos (by rw [hrep, hcan]; rfl)]
      exact mem_multimapInsert.2 (Or.inl rfl)
    · exact ih (rearmOne s u) ht

theorem foldl_rearm_tasks_length (l : List TimerTask) (s : AsyncTimer) :
    (l.foldl rearmOne s).timerTasks.length =
      s.timerTasks.length +
        (l.filter (fun t => t.isRepeating && !t.isCancelled)).length := by
  induction l generalizing s with
  | nil => rfl
  | cons t ts ih =>
    rw [List.foldl_cons, ih, List.filter_cons]
    by_cases hrep : (t.isRepeating && !t.isCancelled) = true
    · rw [if_pos (by simpa using hrep), rearmOne, if_pos hrep]
      have : (multimapInsert
          { t with nextExecutionTime := t.nextExecutionTime + t.interval }
          s.timerTasks).length = s.timerTasks.length + 1 := by
        rw [(multimapInsert_perm _ _).length_eq, List.length_cons]
      simp only [this, List.length_cons]
      omega
    · rw [if_neg (by simpa using hrep), rearmOne, if_neg hrep]

/-! Monotonicity of the id counter along every run. -/

theorem schedIdsOf_cases (s : AsyncTimer) (o : Op) :
    (schedIdsOf s o = [] ∧ (applyOp s o).nextTimerId = s.nextTimerId) ∨
      (schedIdsOf s o = [s.nextTimerId] ∧
        (applyOp s o).nextTimerId = s.nextTimerId + 1) := by
  cases o with
  | start poolOk =>
    refine Or.inl ⟨rfl, ?_⟩
    rw [applyOp, Start]
    by_cases hr : s.running
    · rw [if_pos hr]
    · rw [if_neg hr]
      by_cases hp : poolOk
      · rw [hp]
        rfl
      · simp only [Bool.not_eq_true] at hp
        rw [hp]
        rfl
  | stop =>
    refine Or.inl ⟨rfl, ?_⟩
    rw [applyOp, Stop]
    by_cases hr : s.running
    · rw [if_pos hr]
    · rw [if_neg hr]
  | scheduleOnce cb d now =>
    rw [applyOp, ScheduleOnce, schedIdsOf]
    by_cases hr : s.running
    · rw [if_pos hr, if_pos hr]
      exact Or.inr ⟨rfl, rfl⟩
    · rw [if_neg hr, if_neg hr]
      exact Or.inl ⟨rfl, rfl⟩
  | scheduleRepeating cb i d now =>
    rw [applyOp, ScheduleRepeating, schedIdsOf]
    by_cases hr : s.running
    · rw [if_pos hr, if_pos hr]
      exact Or.inr ⟨rfl, rfl⟩
    · rw [if_neg hr, if_neg hr]
      exact Or.inl ⟨rfl, rfl⟩
  | cancel tid =>
    refine Or.inl ⟨rfl, ?_⟩
    rw [applyOp, Cancel]
    by_cases hc : s.timerMap.any (fun p => p.1 == tid)
    · rw [if_pos hc]
    · rw [if_neg hc]
  | cancelAll =>
    exact Or.inl ⟨rfl, rfl⟩
  | workerPass now =>
    refine Or.inl ⟨rfl, ?_⟩
    rw [applyOp, executeExpired_snd, foldl_rearm_nextTimerId]

theorem runIds_lb (ops : List Op) (s : AsyncTimer) :
    (runIds s ops).Pairwise (fun a b => a < b) ∧
      ∀ i ∈ runIds s ops, s.nextTimerId ≤ i := by
  induction ops generalizing s with
  | nil => exact ⟨List.Pairwise.nil, by intro i hi; cases hi⟩
  | cons o os ih =>
    rw [runIds]
    rcases ih (applyOp s o) with ⟨hpw, hlb⟩
    rcases schedIdsOf_cases s o with ⟨hids, hctr⟩ | ⟨hids, hctr⟩
    · rw [hids, List.nil_append]
      refine ⟨hpw, ?_⟩
      intro i hi
      rw [← hctr]
      exact hlb i hi
    · rw [hids, List.singleton_append]
      constructor
      · refine List.pairwise_cons.2 ⟨?_, hpw⟩
        intro b hb
        have := hlb b hb
        rw [hctr] at this
        omega
      · intro i hi
        rcases List.mem_cons.1 hi with rfl | hi
        · exact Nat.le_refl _
        · have := hlb i hi
          rw [hctr] at this
          omega

/-! Claim theorems. -/

/-- C1: in every reachable scheduler state the deadline-ordered view and
the id-keyed view hold exactly the same set of live records: the two
views are a permutation of one another, an id is present in one view
exactly when it is present in the other, and `Cancel` removes the record
from both views immediately, leaving the views still in agreement. -/
theorem async_timer_views_agree (s : AsyncTimer) (h : Reachable s) :
    s.timerTasks.Perm (s.timerMap.map Prod.snd) ∧
      (∀ tid, (∃ t ∈ s.timerTasks, t.id = tid) ↔ ∃ p ∈ s.timerMap, p.1 = tid) ∧
      ∀ tid,
        (∀ t ∈ (Cancel s tid).2.timerTasks, t.id ≠ tid) ∧
        (∀ p ∈ (Cancel s tid).2.timerMap, p.1 ≠ tid) ∧
        (Cancel s tid).2.timerTasks.Perm
          ((Cancel s tid).2.timerMap.map Prod.snd) := by
  have hinv := reachable_inv h
  refine ⟨hinv.views_perm, ?_, ?_⟩
  · intro tid
    constructor
    · rintro ⟨t, ht, rfl⟩
      have hm := hinv.views_perm.mem_iff.1 ht
      rcases List.mem_map.1 hm with ⟨p, hp, rfl⟩
      exact ⟨p, hp, hinv.key_id p hp⟩
    · rintro ⟨p, hp, rfl⟩
      exact ⟨p.2,
        hinv.views_perm.mem_iff.2 (List.mem_map_of_mem Prod.snd hp),
        (hinv.key_id p hp).symm⟩
  · intro tid
    exact ⟨cancel_removes_tasks hinv tid, cancel_removes_map hinv tid,
      (inv_cancel hinv tid).views_perm⟩

theorem async_timer_views_agree_witness :
    (applyOp (applyOp AsyncTimer.init (Op.start true))
        (Op.scheduleOnce 7 50 0)).timerTasks.Perm
      ((applyOp (applyOp AsyncTimer.init (Op.start true))
        (Op.scheduleOnce 7 50 0)).timerMap.map Prod.snd) :=
  (async_timer_views_agree _
    (Reachable.step _ _ (Reachable.step _ _ Reachable.init))).1

/-- C2: on every reachable state, the pop-expired operation of the worker
removes and returns exactly the records whose deadline is at most `now`
(the records with a later deadline remain), the returned sequence is
sorted by nondecreasing deadline and is a stable subsequence of the
store; insertion places a record after all records with an equal or
earlier deadline, so equal deadlines are returned in insertion order. -/
theorem popExpired_exact (s : AsyncTimer) (h : Reachable s) (now : Nat) :
    (popExpiredFrom now s.timerTasks).1 =
        s.timerTasks.filter (fun t => t.nextExecutionTime ≤ now) ∧
      (popExpiredFrom now s.timerTasks).2 =
        s.timerTasks.filter (fun t => now < t.nextExecutionTime) ∧
      (popExpiredFrom now s.timerTasks).1.Pairwise
        (fun a b => a.nextExecutionTime ≤ b.nextExecutionTime) ∧
      (popExpiredFrom now s.timerTasks).1.Sublist s.timerTasks ∧
      ∀ (t : TimerTask) (l : List TimerTask),
        multimapInsert t l =
          l.takeWhile (fun x => !(t.nextExecutionTime < x.nextExecutionTime)) ++
            t :: l.dropWhile
              (fun x => !(t.nextExecutionTime < x.nextExecutionTime)) := by
  have hinv := reachable_inv h
  refine ⟨popExpiredFrom_fst hinv now, popExpiredFrom_snd hinv now, ?_, ?_, ?_⟩
  · rw [popExpiredFrom_fst hinv now]
    exact List.Pairwise.sublist (List.filter_sublist _) hinv.tasks_sorted
  · rw [popExpiredFrom_fst hinv now]
    exact List.filter_sublist _
  · exact multimapInsert_eq_append

theorem popExpired_exact_witness :
    (popExpiredFrom 100 (applyOp (applyOp AsyncTimer.init (Op.start true))
        (Op.scheduleOnce 7 50 0)).timerTasks).1 =
      (applyOp (applyOp AsyncTimer.init (Op.start true))
        (Op.scheduleOnce 7 50 0)).timerTasks.filter
          (fun t => t.nextExecutionTime ≤ 100) :=
  (popExpired_exact _
    (Reachable.step _ _ (Reachable.step _ _ Reachable.init)) 100).1

theorem executeExpired_single (u : TimerTask) (hrep : u.isRepeating = true)
    (hcan : u.isCancelled = false) (s : AsyncTimer)
    (hs : s.timerTasks = [u]) (now : Nat)
    (hnow : u.nextExecutionTime ≤ now) :
    (ExecuteExpiredTimers s now).2.timerTasks =
      [{ u with nextExecutionTime := u.nextExecutionTime + u.interval }] := by
  rw [executeExpired_snd, foldl_rearm_tasks, hs]
  simp only [popExpiredFrom, hnow, if_pos, List.foldl_cons, List.foldl_nil,
    hrep, hcan, Bool.not_false, Bool.and_self, if_pos trivial, multimapInsert]

/-- C3: a repeating, non-cancelled record popped by the worker is
reinserted with its next deadline equal to the previous scheduled
deadline plus its interval, and a lone repeating timer that has fired k
times is scheduled at exactly its first deadline plus k times its
interval: the period is measured from the previous scheduled deadline,
so no drift accumulates. -/
theorem repeating_rearm_no_drift :
    (∀ (s : AsyncTimer) (now : Nat) (t : TimerTask),
        t ∈ (popExpiredFrom now s.timerTasks).1 → t.isRepeating = true →
          t.isCancelled = false →
          { t with nextExecutionTime := t.nextExecutionTime + t.interval } ∈
            (ExecuteExpiredTimers s now).2.timerTasks) ∧
      ∀ (t : TimerTask) (k : Nat), t.isRepeating = true →
        t.isCancelled = false →
        (fireTimes t k).timerTasks =
          [{ t with nextExecutionTime := nthDeadline t k }] := by
  constructor
  · intro s now t ht hrep hcan
    rw [executeExpired_snd]
    exact foldl_rearm_mem_rearmed _ _ ht hrep hcan
  · intro t k hrep hcan
    induction k with
    | zero =>
      show (singleState t).timerTasks = _
      rw [singleState, nthDeadline]
      cases t
      simp
    | succ k ih =>
      show ((ExecuteExpiredTimers (fireTimes t k) (nthDeadline t k)).2).timerTasks = _
      rw [executeExpired_single { t with nextExecutionTime := nthDeadline t k }
        hrep hcan (fireTimes t k) ih (nthDeadline t k) (Nat.le_refl _)]
      have harith : nthDeadline t k + t.interval = nthDeadline t (k + 1) := by
        rw [nthDeadline, nthDeadline, Nat.succ_mul]
        omega
      rw [harith]

theorem repeating_rearm_no_drift_witness :
    TimerTask.mk 1 5 16 3 true false ∈
        (ExecuteExpiredTimers (singleState (TimerTask.mk 1 5 13 3 true false))
          20).2.timerTasks ∧
      (fireTimes (TimerTask.mk 1 5 10 3 true false) 2).timerTasks =
        [TimerTask.mk 1 5 16 3 true false] :=
  ⟨repeating_rearm_no_drift.1 (singleState (TimerTask.mk 1 5 13 3 true false))
      20 (TimerTask.mk 1 5 13 3 true false) (by decide) rfl rfl,
    repeating_rearm_no_drift.2 (TimerTask.mk 1 5 10 3 true false) 2 rfl rfl⟩

/-- C4: `Cancel` succeeds exactly when the id is still in the store (so
exactly once, and only strictly before the record is popped), a
successfully cancelled record is never submitted for execution, a second
cancellation of the same id fails, an unknown id fails, and an id whose
one-shot record was already popped by the worker (the lost race, which
includes the already-fired one-shot) fails. -/
theorem cancel_semantics (s : AsyncTimer) (h : Reachable s) (tid : Nat) :
    ((Cancel s tid).1 = true ↔ ∃ t ∈ s.timerTasks, t.id = tid) ∧
      (∀ now u, u ∈ (ExecuteExpiredTimers (Cancel s tid).2 now).1 →
        u.id ≠ tid) ∧
      (Cancel (Cancel s tid).2 tid).1 = false ∧
      ((∀ t ∈ s.timerTasks, t.id ≠ tid) → (Cancel s tid).1 = false) ∧
      ∀ now t, t ∈ (ExecuteExpiredTimers s now).1 → t.isRepeating = false →
        (Cancel (ExecuteExpiredTimers s now).2 t.id).1 = false := by
  have hinv := reachable_inv h
  refine ⟨cancel_true_iff hinv tid, ?_, ?_, ?_, ?_⟩
  · intro now u hu
    rw [executeExpired_fst] at hu
    have hu2 := (List.mem_filter.1 hu).1
    have hu3 := (expired_sub_tasks (inv_cancel hinv tid) hu2).1
    exact cancel_removes_tasks hinv tid u hu3
  · exact cancel_false_of_absent (cancel_removes_map hinv tid)
  · intro hnone
    cases hb : (Cancel s tid).1 with
    | false => rfl
    | true =>
      rcases (cancel_true_iff hinv tid).1 hb with ⟨t, ht, rfl⟩
      exact absurd rfl (hnone t ht)
  · intro now t ht hrepf
    rw [executeExpired_fst] at ht
    have htex := (List.mem_filter.1 ht).1
    have htid : t.id ∈ (popExpiredFrom now s.timerTasks).1.map TimerTask.id :=
      List.mem_map_of_mem TimerTask.id htex
    refine cancel_false_of_absent ?_
    intro p hp
    rcases (inv_workerPass_aux hinv now).2 p hp with hin | hin
    · rcases List.mem_map.1 hin with ⟨q, hq, hq1⟩
      have hq2 := List.mem_filter.1 hq
      intro hcontra
      have : ((popExpiredFrom now s.timerTasks).1.map
          TimerTask.id).contains q.1 = true := by
        rw [hq1, hcontra]
        exact List.elem_eq_true_of_mem htid
      have hneg := hq2.2
      rw [this] at hneg
      simp at hneg
    · rcases List.mem_map.1 hin with ⟨u, hu, hu1⟩
      have hu2 := List.mem_filter.1 hu
      intro hcontra
      have huid : u.id = t.id := by rw [hu1, hcontra]
      have hueq : u = t :=
        List.inj_on_of_nodup_map hinv.tasks_ids_nodup
          (expired_sub_tasks hinv hu2.1).1 (expired_sub_tasks hinv htex).1 huid
      have hurep : (u.isRepeating && !u.isCancelled) = true := by
        simpa using hu2.2
      rw [hueq, hrepf] at hurep
      simp at hurep

theorem cancel_semantics_witness :
    (Cancel (applyOp (applyOp AsyncTimer.init (Op.start true))
        (Op.scheduleOnce 7 50 0)) 1).1 = true :=
  (cancel_semantics _
      (Reachable.step _ _ (Reachable.step _ _ Reachable.init)) 1).1.2
    (by decide)

/-- C5: when the service is not running both schedule calls return the
sentinel id 0 and leave the state unchanged; when it is running they
return the current value of the monotonic counter (never 0), bump the
counter, insert a record with deadline now plus the delay (non-repeating
for `ScheduleOnce`) into both views, and signal the wake condition. -/
theorem schedule_semantics (s : AsyncTimer) (h : Reachable s)
    (cb delayMs intervalMs initialDelayMs now : Nat) :
    (s.running = false →
        ScheduleOnce s cb delayMs now = (0, s) ∧
        ScheduleRepeating s cb intervalMs initialDelayMs now = (0, s)) ∧
      (s.running = true →
        (ScheduleOnce s cb delayMs now).1 = s.nextTimerId ∧
        (ScheduleOnce s cb delayMs now).1 ≠ 0 ∧
        (ScheduleOnce s cb delayMs now).2.nextTimerId = s.nextTimerId + 1 ∧
        TimerTask.create s.nextTimerId cb (now + delayMs) 0 false ∈
          (ScheduleOnce s cb delayMs now).2.timerTasks ∧
        (s.nextTimerId,
            TimerTask.create s.nextTimerId cb (now + delayMs) 0 false) ∈
          (ScheduleOnce s cb delayMs now).2.timerMap ∧
        (TimerTask.create s.nextTimerId cb
          (now + delayMs) 0 false).isRepeating = false ∧
        (TimerTask.create s.nextTimerId cb
          (now + delayMs) 0 false).nextExecutionTime = now + delayMs ∧
        (ScheduleOnce s cb delayMs now).2.wakeSignals = s.wakeSignals + 1 ∧
        (ScheduleRepeating s cb intervalMs initialDelayMs now).1 =
          s.nextTimerId ∧
        TimerTask.create s.nextTimerId cb (now + initialDelayMs)
            intervalMs true ∈
          (ScheduleRepeating s cb intervalMs initialDelayMs now).2.timerTasks) := by
  have hinv := reachable_inv h
  have hpos : s.nextTimerId ≠ 0 := by
    have := hinv.counter_pos
    omega
  constructor
  · intro hr
    have hr2 : ¬ s.running = true := by rw [hr]; exact Bool.false_ne_true
    constructor
    · rw [ScheduleOnce, if_neg hr2]
    · rw [ScheduleRepeating, if_neg hr2]
  · intro hr
    rw [ScheduleOnce, ScheduleRepeating, if_pos hr, if_pos hr]
    refine ⟨rfl, hpos, rfl, ?_, ?_, rfl, rfl, rfl, rfl, ?_⟩
    · exact mem_multimapInsert.2 (Or.inl rfl)
    · exact mem_mapInsert.2 (Or.inl rfl)
    · exact mem_multimapInsert.2 (Or.inl rfl)

theorem schedule_semantics_witness :
    (ScheduleOnce (applyOp AsyncTimer.init (Op.start true)) 5 10 0).1 =
      (applyOp AsyncTimer.init (Op.start true)).nextTimerId ∧
      (ScheduleOnce AsyncTimer.init 5 10 0).2 = AsyncTimer.init :=
  ⟨((schedule_semantics (applyOp AsyncTimer.init (Op.start true))
      (Reachable.step AsyncTimer.init (Op.start true) Reachable.init)
      5 10 0 0 0).2 rfl).1,
    congrArg Prod.snd
      ((schedule_semantics AsyncTimer.init Reachable.init 5 10 0 0 0).1
        rfl).1⟩

/-- C6: the id counter starts at 1, the ids handed out by the successful
schedule calls of any run are strictly increasing in call order (hence
unique), and 0 is never handed out. -/
theorem timer_ids_monotone (ops : List Op) :
    AsyncTimer.init.nextTimerId = 1 ∧
      (runIds AsyncTimer.init ops).Pairwise (fun a b => a < b) ∧
      ∀ i ∈ runIds AsyncTimer.init ops, i ≠ 0 := by
  refine ⟨rfl, (runIds_lb ops AsyncTimer.init).1, ?_⟩
  intro i hi
  have h1 := (runIds_lb ops AsyncTimer.init).2 i hi
  have h2 : AsyncTimer.init.nextTimerId = 1 := rfl
  omega

theorem timer_ids_monotone_witness :
    (runIds AsyncTimer.init
        [Op.start true, Op.scheduleOnce 7 50 0,
          Op.scheduleRepeating 8 20 5 0]).Pairwise (fun a b => a < b) ∧
      (1 : Nat) ≠ 0 :=
  ⟨(timer_ids_monotone
      [Op.start true, Op.scheduleOnce 7 50 0,
        Op.scheduleRepeating 8 20 5 0]).2.1,
    (timer_ids_monotone
      [Op.start true, Op.scheduleOnce 7 50 0,
        Op.scheduleRepeating 8 20 5 0]).2.2 1 (by decide)⟩

/-- C7 counterexample: starting an already-running scheduler fails, yet
the running flag does not stay false — it remains true from the earlier
successful start, and the worker thread remains spawned. -/
theorem start_failure_counterexample :
    (Start (Start AsyncTimer.init true).2 true).1 ≠ 0 ∧
      (Start (Start AsyncTimer.init true).2 true).2.running = true ∧
      (Start (Start AsyncTimer.init true).2 true).2.workerSpawned = true := by
  refine ⟨?_, rfl, rfl⟩
  decide

/-- C7 (amended): `Start` returns 0 exactly when the scheduler was not
running and the collaborator starts; otherwise it returns the nonzero
status -1 and leaves the state completely unchanged, so no partial state
is created — in particular, when `Start` fails from a non-running state
the running flag stays false and no worker thread is spawned (a failure
because the scheduler is already running leaves it running). -/
theorem start_failure_semantics (s : AsyncTimer) (h : Reachable s)
    (poolOk : Bool) :
    ((Start s poolOk).1 = 0 ∨ (Start s poolOk).1 = -1) ∧
      ((Start s poolOk).1 = 0 ↔ s.running = false ∧ poolOk = true) ∧
      ((Start s poolOk).1 ≠ 0 → (Start s poolOk).2 = s) ∧
      (s.running = false → (Start s poolOk).1 ≠ 0 →
        (Start s poolOk).2.running = false ∧
          (Start s poolOk).2.workerSpawned = false) := by
  have hinv := reachable_inv h
  have hw := hinv.running_worker
  obtain ⟨r, st, ctr, w, ws, tasks, m⟩ := s
  cases poolOk with
  | true =>
    cases r with
    | true =>
      refine ⟨Or.inr rfl, ?_, fun _ => rfl, ?_⟩
      · constructor
        · intro h0
          exact absurd (show (-1 : Int) = 0 from h0) (by decide)
        · rintro ⟨hf, _⟩
          exact Bool.noConfusion hf
      · intro hrf
        exact Bool.noConfusion hrf
    | false =>
      refine ⟨Or.inl rfl, ⟨fun _ => ⟨rfl, rfl⟩, fun _ => rfl⟩, ?_, ?_⟩
      · intro h0
        exact absurd rfl h0
      · intro _ h0
        exact absurd rfl h0
  | false =>
    cases r with
    | true =>
      refine ⟨Or.inr rfl, ?_, fun _ => rfl, ?_⟩
      · constructor
        · intro h0
          exact absurd (show (-1 : Int) = 0 from h0) (by decide)
        · rintro ⟨hf, _⟩
          exact Bool.noConfusion hf
      · intro hrf
        exact Bool.noConfusion hrf
    | false =>
      refine ⟨Or.inr rfl, ?_, fun _ => rfl, ?_⟩
      · constructor
        · intro h0
          exact absurd (show (-1 : Int) = 0 from h0) (by decide)
        · rintro ⟨_, hpt⟩
          exact Bool.noConfusion hpt
      · intro _ _
        exact ⟨rfl, hw⟩

theorem start_failure_semantics_witness :
    (Start AsyncTimer.init false).2.running = false ∧
      (Start AsyncTimer.init false).2.workerSpawned = false :=
  (start_failure_semantics AsyncTimer.init Reachable.init false).2.2.2 rfl
    (by decide)

/-- C8: `Stop` returns success and is idempotent (a no-op when already
stopped); after `Stop` then `Start` the active timer count is 0 — no
record from before the restart survives — and a new schedule call
succeeds with a nonzero id. -/
theorem stop_start_restart (s : AsyncTimer) (h : Reachable s)
    (cb d now : Nat) :
    (Stop s).1 = 0 ∧
      (s.running = false → (Stop s).2 = s) ∧
      (Stop (Stop s).2).1 = 0 ∧
      (Stop (Stop s).2).2 = (Stop s).2 ∧
      (Start (Stop s).2 true).1 = 0 ∧
      GetActiveTimerCount (Start (Stop s).2 true).2 = 0 ∧
      (ScheduleOnce (Start (Stop s).2 true).2 cb d now).1 ≠ 0 := by
  have hinv := reachable_inv h
  have hctr := hinv.counter_pos
  obtain ⟨r, st, ctr, w, ws, tasks, m⟩ := s
  have hctr2 : 1 ≤ ctr := hctr
  cases r with
  | true =>
    refine ⟨rfl, ?_, rfl, rfl, rfl, rfl, ?_⟩
    · intro hrf
      exact Bool.noConfusion hrf
    · show ctr ≠ 0
      omega
  | false =>
    refine ⟨rfl, fun _ => rfl, rfl, rfl, rfl, rfl, ?_⟩
    show ctr ≠ 0
    omega

theorem stop_start_restart_witness :
    GetActiveTimerCount
        (Start (Stop (applyOp (applyOp AsyncTimer.init (Op.start true))
          (Op.scheduleOnce 7 50 0))).2 true).2 = 0 :=
  (stop_start_restart _
      (Reachable.step _ _ (Reachable.step _ _ Reachable.init))
      7 50 0).2.2.2.2.2.1

/-- C9: the active timer count is exactly the number of records in the
store (both views have that size); a schedule call while running raises
it by one, a successful cancel lowers it by one, `CancelAll` brings it to
0, and a worker pass removes every popped record and adds back exactly
the re-armed repeating ones, so a completed one-shot lowers it by one. -/
theorem active_count_tracks_store (s : AsyncTimer) (h : Reachable s)
    (cb d i tid now : Nat) :
    GetActiveTimerCount s = s.timerTasks.length ∧
      s.timerTasks.length = s.timerMap.length ∧
      (s.running = true →
        GetActiveTimerCount (ScheduleOnce s cb d now).2 =
            GetActiveTimerCount s + 1 ∧
          GetActiveTimerCount (ScheduleRepeating s cb i d now).2 =
            GetActiveTimerCount s + 1) ∧
      ((Cancel s tid).1 = true →
        GetActiveTimerCount (Cancel s tid).2 + 1 = GetActiveTimerCount s) ∧
      GetActiveTimerCount (CancelAll s) = 0 ∧
      GetActiveTimerCount (ExecuteExpiredTimers s now).2 +
          (popExpiredFrom now s.timerTasks).1.length =
        GetActiveTimerCount s +
          ((popExpiredFrom now s.timerTasks).1.filter
            (fun t => t.isRepeating && !t.isCancelled)).length := by
  have hinv := reachable_inv h
  refine ⟨rfl, ?_, ?_, ?_, rfl, ?_⟩
  · rw [hinv.views_perm.length_eq, List.length_map]
  · intro hr
    constructor
    · rw [ScheduleOnce, if_pos hr, GetActiveTimerCount, GetActiveTimerCount]
      show (multimapInsert _ s.timerTasks).length = s.timerTasks.length + 1
      rw [(multimapInsert_perm _ _).length_eq, List.length_cons]
    · rw [ScheduleRepeating, if_pos hr, GetActiveTimerCount,
        GetActiveTimerCount]
      show (multimapInsert _ s.timerTasks).length = s.timerTasks.length + 1
      rw [(multimapInsert_perm _ _).length_eq, List.length_cons]
  · intro hc
    have hany : s.timerMap.any (fun p => p.1 == tid) = true := by
      by_contra hno
      rw [Cancel, if_neg hno] at hc
      exact Bool.noConfusion hc
    rcases (cancel_true_iff hinv tid).1 hc with ⟨t, ht, htid⟩
    rw [Cancel, if_pos hany, GetActiveTimerCount, GetActiveTimerCount]
    show (s.timerTasks.eraseP (fun t => t.id == tid)).length + 1 =
      s.timerTasks.length
    exact List.length_eraseP_add_one ht (by simp [htid])
  · rw [executeExpired_snd, GetActiveTimerCount, GetActiveTimerCount,
      foldl_rearm_tasks_length]
    have hsplit : (popExpiredFrom now s.timerTasks).1.length +
        (popExpiredFrom now s.timerTasks).2.length =
        s.timerTasks.length := by
      rw [popExpiredFrom_eq]
      have := congrArg List.length
        (@List.takeWhile_append_dropWhile _
          (fun t => decide (t.nextExecutionTime ≤ now)) s.timerTasks)
      rw [List.length_append] at this
      exact this
    show (popExpiredFrom now s.timerTasks).2.length + _ + _ = _
    omega

theorem active_count_tracks_store_witness :
    GetActiveTimerCount
        (CancelAll (applyOp (applyOp AsyncTimer.init (Op.start true))
          (Op.scheduleOnce 7 50 0))) = 0 :=
  (active_count_tracks_store _
      (Reachable.step _ _ (Reachable.step _ _ Reachable.init))
      0 0 0 0 0).2.2.2.2.1

/-- C10: the `TimerTask` constructor unconditionally initialises the
cancelled flag to false, so every record newly inserted by `ScheduleOnce`
or `ScheduleRepeating` is not cancelled at insertion time. -/
theorem timer_task_starts_not_cancelled :
    (∀ id cb execTime interval repeating,
        (TimerTask.create id cb execTime interval repeating).isCancelled =
          false) ∧
      (∀ s cb d now t, t ∈ (ScheduleOnce s cb d now).2.timerTasks →
        t ∉ s.timerTasks → t.isCancelled = false) ∧
      ∀ s cb i d now t,
        t ∈ (ScheduleRepeating s cb i d now).2.timerTasks →
          t ∉ s.timerTasks → t.isCancelled = false := by
  refine ⟨fun _ _ _ _ _ => rfl, ?_, ?_⟩
  · intro s cb d now t ht hnot
    rw [ScheduleOnce] at ht
    by_cases hr : s.running = true
    · rw [if_pos hr] at ht
      rcases mem_multimapInsert.1 ht with rfl | ht
      · rfl
      · exact absurd ht hnot
    · rw [if_neg hr] at ht
      exact absurd ht hnot
  · intro s cb i d now t ht hnot
    rw [ScheduleRepeating] at ht
    by_cases hr : s.running = true
    · rw [if_pos hr] at ht
      rcases mem_multimapInsert.1 ht with rfl | ht
      · rfl
      · exact absurd ht hnot
    · rw [if_neg hr] at ht
      exact absurd ht hnot

theorem timer_task_starts_not_cancelled_witness :
    (TimerTask.create 1 2 3 4 true).isCancelled = false ∧
      (TimerTask.create 1 5 60 0 false).isCancelled = false :=
  ⟨timer_task_starts_not_cancelled.1 1 2 3 4 true,
    timer_task_starts_not_cancelled.2.1
      (applyOp AsyncTimer.init (Op.start true)) 5 10 50
      (TimerTask.create 1 5 60 0 false) (by decide) (by decide)⟩

end LmCore
